import Mathlib

/-!
Verification development for the auction engine.

Shallow embedding of the Go sources:
- internal/models/auction.go, internal/models/bid.go  (data model and pure helpers)
- internal/handlers/bid.go                            (PlaceBid, BuyItNow pipelines)
- services FinalizeAuction (AuctionService) and NotificationService
- internal/websocket/connection.go, hub.go            (resume, connection limits)

Monetary amounts are `decimal(18,2)`; all decisions in the source are order
comparisons, so amounts are embedded as `Int` (smallest currency unit).
Timestamps are embedded as `Int` (seconds); `time.After` is strict `<`.
Status codes in the source are strings compared against five constants, so they
are embedded as a five-element inductive. Database auto-increment columns are
embedded as explicit counters in the state. Audit-log and alias writes are not
observable by any property below and are not modelled.
-/

namespace AuctionModel

/-- Auction types (models/auction.go `AuctionType`). -/
inductive AuctionType where
  | sealed
  | english
  | dutch
deriving DecidableEq, Repr

/-- Auction status codes (models/auction.go `AuctionStatus`). -/
inductive AuctionStatus where
  | draft
  | active
  | extended
  | ended
  | cancelled
deriving DecidableEq, Repr

/-- Auction row (models/auction.go `Auction`), restricted to the fields read or
written by the embedded operations. -/
structure Auction where
  auctionID : Nat
  sellerID : Nat
  auctionType : AuctionType
  statusCode : AuctionStatus
  allowedMinBid : Int
  allowedMaxBid : Int
  reservePrice : Option Int
  minIncrement : Int
  buyItNow : Option Int
  currentPrice : Option Int
  highestBidderID : Option Nat
  reserveMet : Bool
  softCloseTriggerSec : Int
  softCloseExtendSec : Int
  startAt : Int
  endAt : Int
  extendedUntil : Option Int
  extensionCount : Int
  isAnonymous : Bool
deriving DecidableEq, Repr

/-- Bid row (models/bid.go `Bid`). Hash columns are audit-only and omitted. -/
structure Bid where
  bidID : Nat
  auctionID : Nat
  bidderID : Nat
  amount : Int
  clientSeq : Int
  accepted : Bool
  rejectReason : String
  finalRank : Option Nat
  maxProxyAmount : Option Int
  isWinning : Bool
  isVisible : Bool
  createdAt : Int
  deletedAt : Option Int
deriving DecidableEq, Repr

/-- models/auction.go `IsActive`: status is `active` or `extended`. -/
def Auction.isActive (a : Auction) : Bool :=
  a.statusCode = AuctionStatus.active || a.statusCode = AuctionStatus.extended

/-- models/auction.go `GetEffectiveEndTime`:
`ExtendedUntil` when set and strictly after `EndAt`, otherwise `EndAt`. -/
def Auction.getEffectiveEndTime (a : Auction) : Int :=
  match a.extendedUntil with
  | some t => if a.endAt < t then t else a.endAt
  | none => a.endAt

/-- models/auction.go `IsInSoftCloseWindow`: active and
`now` strictly after `effectiveEnd - trigger` (`time.Now().After(triggerTime)`). -/
def Auction.isInSoftCloseWindow (now : Int) (a : Auction) : Bool :=
  a.isActive && decide (a.getEffectiveEndTime - a.softCloseTriggerSec < now)

/-- models/auction.go `CanExtend`. -/
def Auction.canExtend (now : Int) (a : Auction) : Bool :=
  a.isActive && a.isInSoftCloseWindow now

/-- models/auction.go `ExtendAuction`: when extension is possible, push the
effective end by `SoftCloseExtendSec`, bump `ExtensionCount`, and move an
`active` auction to `extended`. -/
def Auction.extendAuction (now : Int) (a : Auction) : Auction :=
  if a.canExtend now then
    { a with
      extendedUntil := some (a.getEffectiveEndTime + a.softCloseExtendSec)
      extensionCount := a.extensionCount + 1
      statusCode :=
        if a.statusCode = AuctionStatus.active then AuctionStatus.extended
        else a.statusCode }
  else a

/-- models/auction.go `ValidateBidAmount`. -/
def Auction.validateBidAmount (a : Auction) (amount : Int) : Bool :=
  decide (a.allowedMinBid ≤ amount) && decide (amount ≤ a.allowedMaxBid)

/-- models/auction.go `IsEnglishAuction`. -/
def Auction.isEnglishAuction (a : Auction) : Bool :=
  a.auctionType = AuctionType.english

/-- models/auction.go `GetMinimumBid`. Note the guard `*CurrentPrice > 0`:
a present but zero current price falls through to the reserve branch. -/
def Auction.getMinimumBid (a : Auction) : Int :=
  if !a.isEnglishAuction then a.allowedMinBid
  else
    match a.currentPrice with
    | some cp =>
      if 0 < cp then cp + a.minIncrement
      else
        match a.reservePrice with
        | some rp => if a.allowedMinBid < rp then rp else a.allowedMinBid
        | none => a.allowedMinBid
    | none =>
      match a.reservePrice with
      | some rp => if a.allowedMinBid < rp then rp else a.allowedMinBid
      | none => a.allowedMinBid

/-- models/auction.go `ValidateEnglishBidAmount`: returns the boolean verdict
and the rejection code string. -/
def Auction.validateEnglishBidAmount (a : Auction) (amount : Int) : Bool × String :=
  if !a.isEnglishAuction then (a.validateBidAmount amount, "")
  else if amount < a.allowedMinBid || a.allowedMaxBid < amount then
    (false, "bid_out_of_range")
  else if amount < a.getMinimumBid then (false, "bid_under_minimum")
  else (true, "")

/-- models/auction.go `UpdateCurrentPrice` (english only). -/
def Auction.updateCurrentPrice (a : Auction) (amount : Int) (bidderID : Nat) : Auction :=
  if !a.isEnglishAuction then a
  else
    { a with
      currentPrice := some amount
      highestBidderID := some bidderID
      reserveMet :=
        match a.reservePrice with
        | some rp => if rp ≤ amount then true else a.reserveMet
        | none => a.reserveMet }

/-- models/auction.go `CanBuyItNow`: english, `BuyItNow` set, active. -/
def Auction.canBuyItNow (a : Auction) : Bool :=
  a.isEnglishAuction && a.buyItNow.isSome && a.isActive

/-- models/auction.go `ExecuteBuyItNow`: on success returns the mutated
auction; `none` mirrors the `false` return. -/
def Auction.executeBuyItNow (a : Auction) (buyerID : Nat) : Option Auction :=
  if !a.canBuyItNow then none
  else
    some { a with
      currentPrice := a.buyItNow
      highestBidderID := some buyerID
      statusCode := AuctionStatus.ended
      reserveMet := true }

/-- Event types (models/events.go). -/
inductive EventType where
  | opened
  | bidAccepted
  | bidRejected
  | extended
  | closed
  | notified
  | error
deriving DecidableEq, Repr

/-- Event-log row (models/events.go `AuctionEvent`); `eventID` is the
auto-increment resume cursor. Payloads are not decision-relevant here. -/
structure EventRec where
  eventID : Nat
  auctionID : Nat
  eventType : EventType
  actorUserID : Option Nat
deriving DecidableEq, Repr

/-- Status-history row (models/audit.go `AuctionStatusHistory`). The handlers
hardcode `FromStatus` to `active`. -/
structure HistoryRec where
  auctionID : Nat
  fromStatus : AuctionStatus
  toStatus : AuctionStatus
  reason : String
deriving DecidableEq, Repr

/-- Mutable state touched by the bid-admission pipeline for one auction:
the locked auction row, its bid rows, the event log, the status history,
the set of active blacklist entries, and the auto-increment counters. -/
structure EngineState where
  auction : Auction
  bids : List Bid
  events : List EventRec
  history : List HistoryRec
  blacklist : List Nat
  nextBidID : Nat
  nextEventID : Nat
deriving DecidableEq, Repr

/-- Outcome of `PlaceBid` (handlers/bid.go), as the distinct JSON responses. -/
inductive PlaceBidOutcome where
  | blacklisted
  | tooFrequent
  | auctionNotActive
  | pastDeadline
  | rejectedAmount (reason : String)
  | duplicateReplay (accepted : Bool) (rejectReason : String)
  | accepted (bidID : Nat) (eventID : Nat) (softCloseExtended : Bool)
deriving DecidableEq, Repr

/-- The amount validation of handlers/bid.go `PlaceBid` lines 161-195:
english auctions use `ValidateEnglishBidAmount` (codes `bid_out_of_range`,
`bid_under_minimum`), sealed auctions use `ValidateBidAmount`
(code `out_of_range`). `none` means the amount is admissible. -/
def amountCheck (a : Auction) (amount : Int) : Option String :=
  if a.isEnglishAuction then
    match a.validateEnglishBidAmount amount with
    | (true, _) => none
    | (false, r) => some r
  else if a.validateBidAmount amount then none
  else some "out_of_range"

/-- handlers/bid.go `PlaceBid`, in source order: blacklist lookup, 5-second
rate check, lock and load, status check, deadline check, amount check,
idempotency lookup on `(auction_id, bidder_id, client_seq)`, soft-close
extension, english winning-flag rewrite and price update, bid insert,
`bid_accepted` event (plus `extended` event when the soft close fired). -/
def placeBid (now : Int) (s : EngineState) (bidderID : Nat) (amount : Int)
    (clientSeq : Int) (maxProxy : Option Int) : PlaceBidOutcome × EngineState :=
  if s.blacklist.contains bidderID then (.blacklisted, s)
  else if s.bids.any fun b =>
      b.auctionID = s.auction.auctionID && b.bidderID = bidderID &&
      decide (now - 5 < b.createdAt) then
    (.tooFrequent, s)
  else if !s.auction.isActive then (.auctionNotActive, s)
  else if s.auction.getEffectiveEndTime < now then (.pastDeadline, s)
  else
    match amountCheck s.auction amount with
    | some r => (.rejectedAmount r, s)
    | none =>
      match s.bids.find? fun b =>
          b.auctionID = s.auction.auctionID && b.bidderID = bidderID &&
          b.clientSeq = clientSeq with
      | some prior => (.duplicateReplay prior.accepted prior.rejectReason, s)
      | none =>
        let softClose := s.auction.canExtend now
        let a1 := s.auction.extendAuction now
        let hist : List HistoryRec :=
          if softClose then
            [{ auctionID := s.auction.auctionID
               fromStatus := AuctionStatus.active
               toStatus := a1.statusCode
               reason := "Extended due to bid in soft-close window" }]
          else []
        let bids1 :=
          if s.auction.isEnglishAuction then
            s.bids.map fun b =>
              if b.auctionID = s.auction.auctionID then { b with isWinning := false }
              else b
          else s.bids
        let a2 := if s.auction.isEnglishAuction then a1.updateCurrentPrice amount bidderID else a1
        let newBid : Bid :=
          { bidID := s.nextBidID
            auctionID := s.auction.auctionID
            bidderID := bidderID
            amount := amount
            clientSeq := clientSeq
            accepted := true
            rejectReason := ""
            finalRank := none
            maxProxyAmount := maxProxy
            isWinning := s.auction.isEnglishAuction
            isVisible := s.auction.isEnglishAuction
            createdAt := now
            deletedAt := none }
        let bidEvent : EventRec :=
          { eventID := s.nextEventID
            auctionID := s.auction.auctionID
            eventType := EventType.bidAccepted
            actorUserID := some bidderID }
        let evs :=
          if softClose then
            [bidEvent,
             { eventID := s.nextEventID + 1
               auctionID := s.auction.auctionID
               eventType := EventType.extended
               actorUserID := none }]
          else [bidEvent]
        (.accepted s.nextBidID s.nextEventID softClose,
         { s with
           auction := a2
           bids := bids1 ++ [newBid]
           events := s.events ++ evs
           history := s.history ++ hist
           nextBidID := s.nextBidID + 1
           nextEventID := s.nextEventID + (if softClose then 2 else 1) })

/-- Outcome of `BuyItNow` (handlers/bid.go), as the distinct JSON responses. -/
inductive BuyItNowOutcome where
  | blacklisted
  | notAvailable
  | failed
  | success (finalPrice : Int) (eventID : Nat)
deriving DecidableEq, Repr

/-- handlers/bid.go `BuyItNow`, in source order: blacklist lookup, lock and
load, `CanBuyItNow` check, `ExecuteBuyItNow`, winning bid row at the
`BuyItNow` amount, history row, `closed` event. The pipeline performs no
rate check and no idempotency lookup. -/
def buyItNow (now : Int) (s : EngineState) (buyerID : Nat)
    (clientSeq : Int) : BuyItNowOutcome × EngineState :=
  if s.blacklist.contains buyerID then (.blacklisted, s)
  else if !s.auction.canBuyItNow then (.notAvailable, s)
  else
    match s.auction.executeBuyItNow buyerID with
    | none => (.failed, s)
    | some a1 =>
      let price := s.auction.buyItNow.getD 0
      let newBid : Bid :=
        { bidID := s.nextBidID
          auctionID := s.auction.auctionID
          bidderID := buyerID
          amount := price
          clientSeq := clientSeq
          accepted := true
          rejectReason := ""
          finalRank := none
          maxProxyAmount := none
          isWinning := true
          isVisible := true
          createdAt := now
          deletedAt := none }
      let hist : HistoryRec :=
        { auctionID := s.auction.auctionID
          fromStatus := AuctionStatus.active
          toStatus := AuctionStatus.ended
          reason := "Buy it now executed" }
      let ev : EventRec :=
        { eventID := s.nextEventID
          auctionID := s.auction.auctionID
          eventType := EventType.closed
          actorUserID := some buyerID }
      (.success price s.nextEventID,
       { s with
         auction := a1
         bids := s.bids ++ [newBid]
         events := s.events ++ [ev]
         history := s.history ++ [hist]
         nextBidID := s.nextBidID + 1
         nextEventID := s.nextEventID + 1 })

/-! ### Finalization (AuctionService.FinalizeAuction)

The ranking query is `ORDER BY amount DESC, created_at ASC`; `bidLE` is that
comparator. Row order among full ties is not specified by the database, so the
fetched table is modelled as a list and the query as a stable sort of it. -/

/-- The `FinalizeAuction` sort order: amount descending, then created_at
ascending. There is no further tiebreaker in the query. -/
def bidLE (a b : Bid) : Prop :=
  b.amount < a.amount ∨ (a.amount = b.amount ∧ a.createdAt ≤ b.createdAt)

instance : DecidableRel bidLE := fun a b => by
  unfold bidLE
  infer_instance

instance : IsTotal Bid bidLE := by
  constructor
  intro a b
  unfold bidLE
  rcases lt_trichotomy a.amount b.amount with h | h | h
  · exact Or.inr (Or.inl h)
  · rcases le_total a.createdAt b.createdAt with h2 | h2
    · exact Or.inl (Or.inr ⟨h, h2⟩)
    · exact Or.inr (Or.inr ⟨h.symm, h2⟩)
  · exact Or.inl (Or.inl h)

instance : IsTrans Bid bidLE := by
  constructor
  intro a b c hab hbc
  unfold bidLE at *
  rcases hab with h1 | ⟨h1, h1'⟩
  · rcases hbc with h2 | ⟨h2, _⟩
    · exact Or.inl (h2.trans h1)
    · exact Or.inl (h2 ▸ h1)
  · rcases hbc with h2 | ⟨h2, h2'⟩
    · exact Or.inl (h1 ▸ h2)
    · exact Or.inr ⟨h1.trans h2, h1'.trans h2'⟩

/-- The list of bids `FinalizeAuction` ranks:
`accepted = true AND deleted_at IS NULL`, sorted by the query order. -/
def sortBidsForFinalize (l : List Bid) : List Bid :=
  List.insertionSort bidLE l

/-- Assign `final_rank = n, n+1, ...` down the list (`FinalizeAuction`
loop `rank := i + 1`). -/
def assignRanks : Nat → List Bid → List Bid
  | _, [] => []
  | n, b :: bs => { b with finalRank := some n } :: assignRanks (n + 1) bs

/-- `FinalizeAuction` ranking: sort the fetched accepted bids and assign
`final_rank = 1, 2, ...` in that order. -/
def finalizeRanks (l : List Bid) : List Bid :=
  assignRanks 1 (sortBidsForFinalize l)

/-- The `WHERE accepted = true AND deleted_at IS NULL` filter of
`FinalizeAuction`, applied to an auction's bid table. -/
def validFinalizeBids (aid : Nat) (bids : List Bid) : List Bid :=
  bids.filter fun b => b.auctionID = aid && b.accepted && b.deletedAt.isNone

/-! ### Notifications (NotificationService) -/

/-- Notification kinds (models, used by notification.go). -/
inductive NotificationKind where
  | winner
  | sellerResult
  | top7
  | participantEnd
deriving DecidableEq, Repr

/-- Notification-log row (`AuctionNotificationLog`), key fields plus the
constants the service writes. The `notified` event append is side metadata
not read by any decision and is not modelled. -/
structure NotifRow where
  auctionID : Nat
  userID : Nat
  kind : NotificationKind
  channel : String
  status : String
deriving DecidableEq, Repr

/-- Does a log row with this `(auction_id, user_id, kind)` key exist? -/
def hasNotif (logs : List NotifRow) (a u : Nat) (k : NotificationKind) : Bool :=
  logs.any fun r => r.auctionID = a && r.userID = u && r.kind = k

/-- notification.go `queueNotification`: look up `(auction_id, user_id, kind)`;
if present skip, else insert a `queued` email row. -/
def queueNotification (a u : Nat) (k : NotificationKind)
    (logs : List NotifRow) : List NotifRow :=
  if hasNotif logs a u k then logs
  else logs ++ [{ auctionID := a, userID := u, kind := k,
                  channel := "email", status := "queued" }]

/-- The winner enqueue of `SendAuctionEndNotifications`
(`if len(bids) > 0 { queue winner for bids[0] }`). -/
def winnerStage (a : Nat) (rb : List Bid) (s : List NotifRow) : List NotifRow :=
  match rb with
  | [] => s
  | w :: _ => queueNotification a w.bidderID NotificationKind.winner s

/-- notification.go `SendAuctionEndNotifications` over the ranked-bid query
result `rb` (`final_rank IS NOT NULL ORDER BY final_rank ASC`): seller row,
then `bids[0]` as winner, then indices `1..6` as top7, then indices `≥ 7`
as participant_end. -/
def sendAuctionEndNotifications (a seller : Nat) (rb : List Bid)
    (logs : List NotifRow) : List NotifRow :=
  let l1 := queueNotification a seller NotificationKind.sellerResult logs
  let l2 := winnerStage a rb l1
  let l3 := ((rb.drop 1).take 6).foldl
    (fun acc b => queueNotification a b.bidderID NotificationKind.top7 acc) l2
  (rb.drop 7).foldl
    (fun acc b => queueNotification a b.bidderID NotificationKind.participantEnd acc) l3

/-! ### Resume over the event log (websocket/connection.go) -/

/-- Stream-offset row (`AuctionStreamOffset`). -/
structure OffsetRow where
  auctionID : Nat
  userID : Nat
  lastEventID : Nat
deriving DecidableEq, Repr

/-- Event-log table plus per-user stream offsets. -/
structure StreamState where
  events : List EventRec
  offsets : List OffsetRow
deriving DecidableEq, Repr

/-- The `ORDER BY event_id ASC` comparator. -/
def eventLE (a b : EventRec) : Prop := a.eventID ≤ b.eventID

instance : DecidableRel eventLE := fun a b => by
  unfold eventLE
  infer_instance

instance : IsTotal EventRec eventLE :=
  ⟨fun a b => le_total a.eventID b.eventID⟩

instance : IsTrans EventRec eventLE :=
  ⟨fun _ _ _ h1 h2 => le_trans h1 h2⟩

/-- `gorm Save` on the composite-key offset row: update in place when the
`(auction_id, user_id)` row exists, else insert. -/
def saveOffset (rows : List OffsetRow) (a u lastID : Nat) : List OffsetRow :=
  if rows.any fun r => r.auctionID = a && r.userID = u then
    rows.map fun r =>
      if r.auctionID = a && r.userID = u then
        { auctionID := a, userID := u, lastEventID := lastID }
      else r
  else rows ++ [{ auctionID := a, userID := u, lastEventID := lastID }]

/-- connection.go `getMissedEvents`: events of the auction with
`event_id > lastEventID`, ordered by `event_id ASC`, limited to 500; then the
stream offset for `(auction_id, user_id)` is saved with the client-presented
`lastEventID` itself. -/
def getMissedEvents (s : StreamState) (a u lastEventID : Nat) :
    List EventRec × StreamState :=
  let missed :=
    (List.insertionSort eventLE
      (s.events.filter fun e => e.auctionID = a && decide (lastEventID < e.eventID))).take 500
  (missed, { s with offsets := saveOffset s.offsets a u lastEventID })

/-- Outbound message shape for the resume reply (`Message` with the missed
events in `data.missed`). -/
structure ResumeMessage where
  type : String
  missed : List EventRec
deriving DecidableEq, Repr

/-- connection.go `handleResume`: fetch the missed events and reply with a
single `resume_ok` message carrying them. -/
def handleResume (s : StreamState) (a u lastEventID : Nat) :
    ResumeMessage × StreamState :=
  let r := getMissedEvents s a u lastEventID
  ({ type := "resume_ok", missed := r.1 }, r.2)

/-- Lookup of a stored stream offset. -/
def lookupOffset (rows : List OffsetRow) (a u : Nat) : Option Nat :=
  (rows.find? fun r => r.auctionID = a && r.userID = u).map (·.lastEventID)

/-! ### Session hub (websocket/hub.go) -/

/-- A registered session, bound to `(auction_id, user_id)`. -/
structure ConnRec where
  connID : Nat
  auctionID : Nat
  userID : Nat
deriving DecidableEq, Repr

/-- hub.go `countUserConnections`: sessions of this user in this auction's
room. The room map is flattened to one list; the auction-id field carries the
room key. -/
def countUserConnections (conns : List ConnRec) (a u : Nat) : Nat :=
  (conns.filter fun c => c.auctionID = a && c.userID = u).length

/-- hub.go `registerConnection`: when the user already holds 3 sessions on the
auction, reply `Error{code: connection_limit}` and close instead of adding. -/
def registerConnection (conns : List ConnRec) (c : ConnRec) :
    List ConnRec × Option String :=
  if 3 ≤ countUserConnections conns c.auctionID c.userID then
    (conns, some "connection_limit")
  else (conns ++ [c], none)

/-- hub.go `unregisterConnection`: remove the session from its room. -/
def unregisterConnection (conns : List ConnRec) (c : ConnRec) : List ConnRec :=
  conns.filter fun x => x.connID ≠ c.connID

/-- The hub's register/unregister intents (`Hub.Run` select loop). -/
inductive HubOp where
  | register (c : ConnRec)
  | unregister (c : ConnRec)
deriving DecidableEq, Repr

/-- One step of the hub loop. -/
def hubStep (conns : List ConnRec) : HubOp → List ConnRec
  | HubOp.register c => (registerConnection conns c).1
  | HubOp.unregister c => unregisterConnection conns c

/-- The hub state after processing a sequence of intents from startup. -/
def hubRun (ops : List HubOp) : List ConnRec :=
  ops.foldl hubStep []

/-! ### Specification-side formulas for the english minimum-next-bid check -/

/-- The minimum-next-bid formula as the specification words it:
`current_price + min_increment` whenever a current price exists (present,
regardless of its value), else `max(reserve_price, allowed_min_bid)` when a
reserve is defined, else `allowed_min_bid`. Stated for comparison with
`Auction.getMinimumBid`. -/
def specMinNextOriginal (a : Auction) : Int :=
  match a.currentPrice with
  | some cp => cp + a.minIncrement
  | none =>
    match a.reservePrice with
    | some rp => max rp a.allowedMinBid
    | none => a.allowedMinBid

/-- The minimum-next-bid formula with the first branch restricted to a
positive current price, matching the source guard `*CurrentPrice > 0`. -/
def specMinNextAmended (a : Auction) : Int :=
  match a.currentPrice with
  | some cp =>
    if 0 < cp then cp + a.minIncrement
    else
      match a.reservePrice with
      | some rp => max rp a.allowedMinBid
      | none => a.allowedMinBid
  | none =>
    match a.reservePrice with
    | some rp => max rp a.allowedMinBid
    | none => a.allowedMinBid

/-! ### Concrete fixtures for witnesses and counterexamples -/

/-- A sealed auction that has already ended. -/
def auctionEnded : Auction :=
  { auctionID := 1
    sellerID := 9
    auctionType := AuctionType.sealed
    statusCode := AuctionStatus.ended
    allowedMinBid := 100
    allowedMaxBid := 500
    reservePrice := none
    minIncrement := 10
    buyItNow := none
    currentPrice := none
    highestBidderID := none
    reserveMet := false
    softCloseTriggerSec := 180
    softCloseExtendSec := 60
    startAt := 0
    endAt := 1000
    extendedUntil := none
    extensionCount := 0
    isAnonymous := false }

/-- The same auction while still active. -/
def auctionLive : Auction :=
  { auctionEnded with statusCode := AuctionStatus.active }

/-- An accepted bid by bidder 5 with client_seq 42, placed at time 0. -/
def priorBid : Bid :=
  { bidID := 1
    auctionID := 1
    bidderID := 5
    amount := 200
    clientSeq := 42
    accepted := true
    rejectReason := ""
    finalRank := none
    maxProxyAmount := none
    isWinning := false
    isVisible := false
    createdAt := 0
    deletedAt := none }

/-- State: ended auction whose table already holds `priorBid`. -/
def stateEndedWithPrior : EngineState :=
  { auction := auctionEnded
    bids := [priorBid]
    events := []
    history := []
    blacklist := []
    nextBidID := 2
    nextEventID := 1 }

/-- State: live auction whose table already holds `priorBid`. -/
def stateLiveWithPrior : EngineState :=
  { stateEndedWithPrior with auction := auctionLive }

/-- State: live auction with an empty bid table. -/
def stateLiveEmpty : EngineState :=
  { auction := auctionLive
    bids := []
    events := []
    history := []
    blacklist := []
    nextBidID := 1
    nextEventID := 1 }

/-- Two accepted bids fully tied on amount and created_at, distinct bid ids. -/
def tieBidA : Bid :=
  { priorBid with bidID := 1, amount := 100, createdAt := 10, clientSeq := 1 }

/-- See `tieBidA`. -/
def tieBidB : Bid :=
  { priorBid with bidID := 2, amount := 100, createdAt := 10, clientSeq := 2 }

/-- A live english auction whose buy-it-now price exceeds `allowed_max_bid`
(creation validates only `buy_it_now > 0`). -/
def auctionBin : Auction :=
  { auctionEnded with
    statusCode := AuctionStatus.active
    auctionType := AuctionType.english
    buyItNow := some 3000
    allowedMaxBid := 2000 }

/-- State for the buy-it-now runs: the table already holds `priorBid`
(bidder 5, client_seq 42). -/
def stateBin : EngineState :=
  { auction := auctionBin
    bids := [priorBid]
    events := []
    history := []
    blacklist := []
    nextBidID := 2
    nextEventID := 1 }

/-- A live english auction whose current price is present but zero. -/
def auctionZeroPrice : Auction :=
  { auctionEnded with
    auctionType := AuctionType.english
    statusCode := AuctionStatus.active
    allowedMinBid := 0
    allowedMaxBid := 5000
    minIncrement := 100
    currentPrice := some 0 }

/-- Ranked-bid fixture: three bids with final ranks 1, 2, 3. -/
def rankedBids : List Bid :=
  [{ priorBid with bidID := 3, bidderID := 21, amount := 400, finalRank := some 1 },
   { priorBid with bidID := 4, bidderID := 22, amount := 300, finalRank := some 2 },
   { priorBid with bidID := 5, bidderID := 23, amount := 250, finalRank := some 3 }]

/-- Event-log fixture for resume: auction 1 holds events 1, 2, 3; an event of
auction 2 is interleaved. -/
def streamFix : StreamState :=
  { events :=
      [{ eventID := 1, auctionID := 1, eventType := EventType.opened, actorUserID := none },
       { eventID := 2, auctionID := 1, eventType := EventType.bidAccepted, actorUserID := some 5 },
       { eventID := 3, auctionID := 2, eventType := EventType.opened, actorUserID := none },
       { eventID := 4, auctionID := 1, eventType := EventType.extended, actorUserID := none }]
    offsets := [] }

/-- Hub fixture: four attach intents by user 5 on auction 1. -/
def hubOpsFix : List HubOp :=
  [HubOp.register { connID := 1, auctionID := 1, userID := 5 },
   HubOp.register { connID := 2, auctionID := 1, userID := 5 },
   HubOp.register { connID := 3, auctionID := 1, userID := 5 },
   HubOp.register { connID := 4, auctionID := 1, userID := 5 }]

/-- The range invariant of the spec: every accepted stored bid lies in
`[allowed_min_bid, allowed_max_bid]`. -/
def rangeInv (s : EngineState) : Prop :=
  ∀ b ∈ s.bids, b.accepted = true →
    s.auction.allowedMinBid ≤ b.amount ∧ b.amount ≤ s.auction.allowedMaxBid

instance (s : EngineState) : Decidable (rangeInv s) := by
  unfold rangeInv
  infer_instance

/-- Strict version of the finalization order: amount strictly greater, or
equal amount and strictly earlier created_at. -/
def bidLT (a b : Bid) : Prop :=
  b.amount < a.amount ∨ (a.amount = b.amount ∧ a.createdAt < b.createdAt)

/-- The unique key of a notification-log row. -/
def notifKey (r : NotifRow) : Nat × Nat × NotificationKind :=
  (r.auctionID, r.userID, r.kind)

/-- No two notification-log rows share `(auction_id, user_id, kind)`. -/
def notifKeysNodup (logs : List NotifRow) : Prop :=
  (logs.map notifKey).Nodup

/-! ## Helper lemmas -/

/-- Per-(auction, user) session-count bound, the hub invariant. -/
def hubInv (conns : List ConnRec) : Prop :=
  ∀ a u, countUserConnections conns a u ≤ 3

theorem countUserConnections_append (conns : List ConnRec) (c : ConnRec) (a u : Nat) :
    countUserConnections (conns ++ [c]) a u =
      countUserConnections conns a u +
        (if c.auctionID = a ∧ c.userID = u then 1 else 0) := by
  by_cases h : c.auctionID = a ∧ c.userID = u
  · simp [countUserConnections, List.filter_append, h]
  · simp only [countUserConnections, List.filter_append, List.length_append, if_neg h]
    have hsingle : (List.filter (fun x : ConnRec => x.auctionID = a && x.userID = u) [c]) = [] := by
      rw [List.filter_cons, List.filter_nil, if_neg (by simpa using h)]
    rw [hsingle]
    simp

theorem countUserConnections_filter_le (conns : List ConnRec)
    (q : ConnRec → Bool) (a u : Nat) :
    countUserConnections (conns.filter q) a u ≤ countUserConnections conns a u :=
  List.Sublist.length_le (List.Sublist.filter _ (List.filter_sublist conns))

theorem hubInv_step (conns : List ConnRec) (op : HubOp) (h : hubInv conns) :
    hubInv (hubStep conns op) := by
  cases op with
  | register c =>
    intro a u
    simp only [hubStep, registerConnection]
    split
    · exact h a u
    · next hlim =>
      rw [countUserConnections_append]
      by_cases hc : c.auctionID = a ∧ c.userID = u
      · rw [if_pos hc]
        have h3 := h c.auctionID c.userID
        have hlt : countUserConnections conns c.auctionID c.userID < 3 := by omega
        rcases hc with ⟨rfl, rfl⟩
        omega
      · rw [if_neg hc]
        have := h a u
        omega
  | unregister c =>
    intro a u
    exact le_trans (countUserConnections_filter_le conns _ a u) (h a u)

theorem hubInv_foldl (ops : List HubOp) :
    ∀ conns, hubInv conns → hubInv (ops.foldl hubStep conns) := by
  induction ops with
  | nil => intro conns h; exact h
  | cons op rest ih =>
    intro conns h
    exact ih (hubStep conns op) (hubInv_step conns op h)

theorem lookupOffset_saveOffset (rows : List OffsetRow) (a u lastID : Nat) :
    lookupOffset (saveOffset rows a u lastID) a u = some lastID := by
  unfold saveOffset lookupOffset
  by_cases hany : (rows.any fun r => r.auctionID = a && r.userID = u) = true
  · rw [if_pos hany, List.find?_map]
    have hpf : ((fun r : OffsetRow => r.auctionID = a && r.userID = u) ∘
        (fun r => if r.auctionID = a && r.userID = u then
          { auctionID := a, userID := u, lastEventID := lastID } else r))
        = fun r : OffsetRow => r.auctionID = a && r.userID = u := by
      funext r
      by_cases hr : (r.auctionID = a && r.userID = u) = true
      · simp [Function.comp, hr]
      · simp [Function.comp, hr]
    rw [hpf]
    obtain ⟨r₀, hr₀⟩ := Option.isSome_iff_exists.mp
      (List.find?_isSome.mpr (List.any_eq_true.mp hany))
    have hkey := List.find?_some hr₀
    rw [hr₀]
    have hk2 : r₀.auctionID = a ∧ r₀.userID = u := by simpa using hkey
    simp [hk2]
  · rw [if_neg hany]
    have hnone : rows.find? (fun r => r.auctionID = a && r.userID = u) = none := by
      rw [List.find?_eq_none]
      intro x hx hpx
      exact hany (List.any_eq_true.mpr ⟨x, hx, hpx⟩)
    rw [List.find?_append, hnone]
    rw [List.find?_cons_of_pos _ (by simp)]
    rfl

theorem endAt_le_getEffectiveEndTime (a : Auction) :
    a.endAt ≤ a.getEffectiveEndTime := by
  unfold Auction.getEffectiveEndTime
  cases a.extendedUntil with
  | none => exact le_refl _
  | some t => dsimp only; omega

theorem updateCurrentPrice_lifecycle_fields (a : Auction) (amt : Int) (u : Nat) :
    (a.updateCurrentPrice amt u).statusCode = a.statusCode ∧
    (a.updateCurrentPrice amt u).extendedUntil = a.extendedUntil ∧
    (a.updateCurrentPrice amt u).extensionCount = a.extensionCount ∧
    (a.updateCurrentPrice amt u).getEffectiveEndTime = a.getEffectiveEndTime ∧
    (a.updateCurrentPrice amt u).allowedMinBid = a.allowedMinBid ∧
    (a.updateCurrentPrice amt u).allowedMaxBid = a.allowedMaxBid := by
  unfold Auction.updateCurrentPrice
  split
  · exact ⟨rfl, rfl, rfl, rfl, rfl, rfl⟩
  · exact ⟨rfl, rfl, rfl, rfl, rfl, rfl⟩

theorem extendAuction_money_fields (now : Int) (a : Auction) :
    (a.extendAuction now).allowedMinBid = a.allowedMinBid ∧
    (a.extendAuction now).allowedMaxBid = a.allowedMaxBid := by
  unfold Auction.extendAuction
  split
  · exact ⟨rfl, rfl⟩
  · exact ⟨rfl, rfl⟩

/-- Complete case analysis of `placeBid`: every rejection leaves the state
untouched, and on acceptance the resulting tuple is spelled out. -/
theorem placeBid_split (now : Int) (s : EngineState) (u : Nat) (amount seq : Int)
    (mp : Option Int) :
    ((placeBid now s u amount seq mp).2 = s ∧
      ∀ bid ev sc, (placeBid now s u amount seq mp).1 ≠ PlaceBidOutcome.accepted bid ev sc) ∨
    (s.blacklist.contains u = false ∧
     (s.bids.any fun b => b.auctionID = s.auction.auctionID && b.bidderID = u &&
        decide (now - 5 < b.createdAt)) = false ∧
     s.auction.isActive = true ∧
     ¬ s.auction.getEffectiveEndTime < now ∧
     amountCheck s.auction amount = none ∧
     (s.bids.find? fun b => b.auctionID = s.auction.auctionID && b.bidderID = u &&
        b.clientSeq = seq) = none ∧
     placeBid now s u amount seq mp =
       (PlaceBidOutcome.accepted s.nextBidID s.nextEventID (s.auction.canExtend now),
        { s with
          auction :=
            if s.auction.isEnglishAuction then
              (s.auction.extendAuction now).updateCurrentPrice amount u
            else s.auction.extendAuction now
          bids :=
            (if s.auction.isEnglishAuction then
              s.bids.map fun b =>
                if b.auctionID = s.auction.auctionID then { b with isWinning := false }
                else b
             else s.bids) ++
            [{ bidID := s.nextBidID
               auctionID := s.auction.auctionID
               bidderID := u
               amount := amount
               clientSeq := seq
               accepted := true
               rejectReason := ""
               finalRank := none
               maxProxyAmount := mp
               isWinning := s.auction.isEnglishAuction
               isVisible := s.auction.isEnglishAuction
               createdAt := now
               deletedAt := none }]
          events :=
            s.events ++
            (if s.auction.canExtend now then
              [{ eventID := s.nextEventID
                 auctionID := s.auction.auctionID
                 eventType := EventType.bidAccepted
                 actorUserID := some u },
               { eventID := s.nextEventID + 1
                 auctionID := s.auction.auctionID
                 eventType := EventType.extended
                 actorUserID := none }]
             else
              [{ eventID := s.nextEventID
                 auctionID := s.auction.auctionID
                 eventType := EventType.bidAccepted
                 actorUserID := some u }])
          history :=
            s.history ++
            (if s.auction.canExtend now then
              [{ auctionID := s.auction.auctionID
                 fromStatus := AuctionStatus.active
                 toStatus := (s.auction.extendAuction now).statusCode
                 reason := "Extended due to bid in soft-close window" }]
             else [])
          nextBidID := s.nextBidID + 1
          nextEventID := s.nextEventID + (if s.auction.canExtend now then 2 else 1) })) := by
  unfold placeBid
  by_cases h1 : s.blacklist.contains u = true
  · rw [if_pos h1]
    exact Or.inl ⟨rfl, by simp⟩
  rw [if_neg h1]
  by_cases h2 : (s.bids.any fun b => b.auctionID = s.auction.auctionID && b.bidderID = u &&
      decide (now - 5 < b.createdAt)) = true
  · rw [if_pos h2]
    exact Or.inl ⟨rfl, by simp⟩
  rw [if_neg h2]
  by_cases h3 : s.auction.isActive = true
  case neg =>
    have h3' : s.auction.isActive = false := by simpa using h3
    rw [if_pos (by simp [h3'])]
    exact Or.inl ⟨rfl, by simp⟩
  rw [if_neg (by simp [h3])]
  by_cases h4 : s.auction.getEffectiveEndTime < now
  · rw [if_pos h4]
    exact Or.inl ⟨rfl, by simp⟩
  rw [if_neg h4]
  cases hchk : amountCheck s.auction amount with
  | some r =>
    exact Or.inl ⟨rfl, by simp⟩
  | none =>
    cases hdup : (s.bids.find? fun b => b.auctionID = s.auction.auctionID &&
        b.bidderID = u && b.clientSeq = seq) with
    | some prior =>
      exact Or.inl ⟨rfl, by simp⟩
    | none =>
      exact Or.inr ⟨by simpa using h1, by simpa using h2, h3, h4, rfl, rfl, rfl⟩

theorem amountCheck_none_range (a : Auction) (amt : Int)
    (h : amountCheck a amt = none) :
    a.allowedMinBid ≤ amt ∧ amt ≤ a.allowedMaxBid := by
  unfold amountCheck Auction.validateEnglishBidAmount at h
  by_cases heng : a.isEnglishAuction = true
  · rw [if_pos heng] at h
    rw [if_neg (by simp [heng])] at h
    by_cases hr : (amt < a.allowedMinBid || a.allowedMaxBid < amt) = true
    · rw [if_pos hr] at h
      simp at h
    · constructor <;> (simp only [Bool.or_eq_true, decide_eq_true_eq] at hr; omega)
  · rw [if_neg heng] at h
    by_cases hv : a.validateBidAmount amt = true
    · unfold Auction.validateBidAmount at hv
      simp only [Bool.and_eq_true, decide_eq_true_eq] at hv
      exact hv
    · rw [if_neg (by simpa using hv)] at h
      simp at h

/-! ## Claim theorems -/

/-- Claim C9: per `(auction_id, user_id)` the hub never holds more than 3
registered sessions, and an attach attempted while 3 are registered is
answered `Error{code: connection_limit}` with the room unchanged. -/
theorem hub_connection_limit :
    (∀ ops a u, countUserConnections (hubRun ops) a u ≤ 3) ∧
    (∀ conns c, countUserConnections conns c.auctionID c.userID = 3 →
      registerConnection conns c = (conns, some "connection_limit")) := by
  constructor
  · intro ops a u
    exact hubInv_foldl ops [] (fun a u => by simp [countUserConnections]) a u
  · intro conns c h
    unfold registerConnection
    rw [if_pos (by omega)]

/-- Witness for C9: three attaches by user 5 fill the limit; the fourth is
refused and the room is unchanged. -/
theorem hub_connection_limit_witness :
    countUserConnections (hubRun hubOpsFix) 1 5 ≤ 3 ∧
    registerConnection (hubRun (hubOpsFix.take 3))
        { connID := 4, auctionID := 1, userID := 5 } =
      (hubRun (hubOpsFix.take 3), some "connection_limit") :=
  ⟨hub_connection_limit.1 hubOpsFix 1 5,
   hub_connection_limit.2 (hubRun (hubOpsFix.take 3))
     { connID := 4, auctionID := 1, userID := 5 } (by decide)⟩

/-- Claim C10 (implicit): after a resume with `last_event_id = L`, the stored
stream offset for `(auction_id, user_id)` equals the client-presented `L`
itself (not the id of the last replayed event), the event log is untouched,
and a second resume from the stored value replays the same events. -/
theorem resume_offset_stores_presented_value (s : StreamState) (a u lastID : Nat) :
    lookupOffset (handleResume s a u lastID).2.offsets a u = some lastID ∧
    (handleResume s a u lastID).2.events = s.events ∧
    (handleResume (handleResume s a u lastID).2 a u lastID).1 =
      (handleResume s a u lastID).1 := by
  refine ⟨?_, rfl, rfl⟩
  exact lookupOffset_saveOffset s.offsets a u lastID

/-- Claim C7 (amended): for an english auction, a bid that passes the range
check is rejected `bid_under_minimum` iff it is below the minimum-next-bid
formula whose current-price branch applies only to a positive current price;
the source `GetMinimumBid` computes exactly that formula. -/
theorem english_under_minimum_iff (a : Auction) (amount : Int)
    (heng : a.isEnglishAuction = true)
    (hlo : a.allowedMinBid ≤ amount) (hhi : amount ≤ a.allowedMaxBid) :
    a.getMinimumBid = specMinNextAmended a ∧
    (a.validateEnglishBidAmount amount = (false, "bid_under_minimum") ↔
      amount < specMinNextAmended a) := by
  have hmin : a.getMinimumBid = specMinNextAmended a := by
    unfold Auction.getMinimumBid specMinNextAmended
    rw [heng]
    simp only [Bool.not_true, Bool.false_eq_true, if_false]
    cases a.currentPrice with
    | none =>
      cases a.reservePrice with
      | none => rfl
      | some rp => dsimp only; omega
    | some cp =>
      by_cases hcp : 0 < cp
      · simp [hcp]
      · simp only [if_neg hcp]
        cases a.reservePrice with
        | none => rfl
        | some rp => dsimp only; omega
  refine ⟨hmin, ?_⟩
  unfold Auction.validateEnglishBidAmount
  rw [heng]
  simp only [Bool.not_true, Bool.false_eq_true, if_false]
  have hrange : (amount < a.allowedMinBid || a.allowedMaxBid < amount) = false := by
    simp only [Bool.or_eq_false_iff, decide_eq_false_iff_not]
    omega
  rw [if_neg (by simp [hrange] : ¬(amount < a.allowedMinBid || a.allowedMaxBid < amount) = true)]
  rw [hmin] at *
  constructor
  · intro h
    by_contra hge
    rw [if_neg (by rw [hmin] at hge ⊢; exact hge)] at h
    exact absurd h (by simp)
  · intro h
    rw [if_pos (by rw [hmin]; exact h)]

/-- Witness for C7: a live english auction with no current price and no
reserve; the minimum next bid is `allowed_min_bid` and 150 is not rejected. -/
theorem english_under_minimum_iff_witness :
    auctionBin.getMinimumBid = specMinNextAmended auctionBin ∧
    (auctionBin.validateEnglishBidAmount 150 = (false, "bid_under_minimum") ↔
      150 < specMinNextAmended auctionBin) :=
  english_under_minimum_iff auctionBin 150 (by decide) (by decide) (by decide)

/-- Counterexample to C7 as stated: with a present-but-zero current price the
claimed formula demands `0 + min_increment = 100`, yet the source accepts a
bid of 50 (the guard is `*CurrentPrice > 0`, not mere presence). -/
theorem english_minimum_zero_current_price :
    auctionZeroPrice.isEnglishAuction = true ∧
    auctionZeroPrice.currentPrice.isSome = true ∧
    auctionZeroPrice.allowedMinBid ≤ 50 ∧ 50 ≤ auctionZeroPrice.allowedMaxBid ∧
    50 < specMinNextOriginal auctionZeroPrice ∧
    auctionZeroPrice.validateEnglishBidAmount 50 = (true, "") := by
  decide

theorem canExtend_of_window (A : Auction) (now : Int)
    (hact : A.isActive = true)
    (hwin : A.getEffectiveEndTime - now < A.softCloseTriggerSec) :
    A.canExtend now = true := by
  unfold Auction.canExtend Auction.isInSoftCloseWindow
  rw [hact, decide_eq_true (by omega : A.getEffectiveEndTime - A.softCloseTriggerSec < now)]
  rfl

theorem canExtend_of_no_window (A : Auction) (now : Int)
    (hwin : A.softCloseTriggerSec ≤ A.getEffectiveEndTime - now) :
    A.canExtend now = false := by
  unfold Auction.canExtend Auction.isInSoftCloseWindow
  rw [decide_eq_false (by omega : ¬A.getEffectiveEndTime - A.softCloseTriggerSec < now)]
  simp

theorem extendAuction_of_canExtend (A : Auction) (now : Int)
    (hcan : A.canExtend now = true) :
    A.extendAuction now =
      { A with
        extendedUntil := some (A.getEffectiveEndTime + A.softCloseExtendSec)
        extensionCount := A.extensionCount + 1
        statusCode :=
          if A.statusCode = AuctionStatus.active then AuctionStatus.extended
          else A.statusCode } := by
  unfold Auction.extendAuction
  rw [if_pos hcan]

theorem extendAuction_of_not_canExtend (A : Auction) (now : Int)
    (hcan : A.canExtend now = false) :
    A.extendAuction now = A := by
  unfold Auction.extendAuction
  rw [if_neg (by simp [hcan])]

theorem getEffectiveEndTime_after_extend (A : Auction) (now : Int)
    (hcan : A.canExtend now = true) (hext : 0 ≤ A.softCloseExtendSec) :
    (A.extendAuction now).getEffectiveEndTime =
      A.getEffectiveEndTime + A.softCloseExtendSec := by
  have hend := endAt_le_getEffectiveEndTime A
  have h1 : (A.extendAuction now).getEffectiveEndTime =
      if A.endAt < A.getEffectiveEndTime + A.softCloseExtendSec then
        A.getEffectiveEndTime + A.softCloseExtendSec
      else A.endAt := by
    rw [extendAuction_of_canExtend A now hcan]
    rfl
  rw [h1]
  omega

/-- Claim C1 (amended): the idempotency lookup runs after the status,
deadline, and amount checks; a resubmission of a persisted
`(auction_id, bidder_id, client_seq)` that passes those checks is answered
`DuplicateReplay` with the persisted verdict verbatim, and the state —
bid rows and event log included — is unchanged. -/
theorem duplicate_replay_after_checks (now : Int) (s : EngineState) (u : Nat)
    (amount seq : Int) (mp : Option Int) (prior : Bid)
    (hbl : s.blacklist.contains u = false)
    (hrate : (s.bids.any fun b => b.auctionID = s.auction.auctionID && b.bidderID = u &&
        decide (now - 5 < b.createdAt)) = false)
    (hact : s.auction.isActive = true)
    (hdl : ¬ s.auction.getEffectiveEndTime < now)
    (hamt : amountCheck s.auction amount = none)
    (hdup : (s.bids.find? fun b => b.auctionID = s.auction.auctionID && b.bidderID = u &&
        b.clientSeq = seq) = some prior) :
    placeBid now s u amount seq mp =
      (PlaceBidOutcome.duplicateReplay prior.accepted prior.rejectReason, s) := by
  unfold placeBid
  rw [if_neg (by simpa using hbl), if_neg (by simp [hrate]), if_neg (by simp [hact]),
    if_neg hdl, hamt, hdup]

/-- Witness for C1: a retry of `priorBid` on the live auction replays the
persisted acceptance and leaves the state untouched. -/
theorem duplicate_replay_after_checks_witness :
    placeBid 100 stateLiveWithPrior 5 200 42 none =
      (PlaceBidOutcome.duplicateReplay true "", stateLiveWithPrior) :=
  duplicate_replay_after_checks 100 stateLiveWithPrior 5 200 42 none priorBid
    (by decide) (by decide) (by decide) (by decide) (by decide) (by decide)

/-- Counterexample to C1 as stated: the same retry against the meanwhile-ended
auction is answered `auction_not_active`, not `DuplicateReplay` — the
idempotency lookup does not run before the state check. -/
theorem duplicate_ignored_before_state_check :
    (∃ b ∈ stateEndedWithPrior.bids,
       b.auctionID = stateEndedWithPrior.auction.auctionID ∧
       b.bidderID = 5 ∧ b.clientSeq = 42 ∧ b.accepted = true) ∧
    (placeBid 100 stateEndedWithPrior 5 200 42 none).1 =
      PlaceBidOutcome.auctionNotActive ∧
    (placeBid 100 stateEndedWithPrior 5 200 42 none).1 ≠
      PlaceBidOutcome.duplicateReplay true "" := by
  decide

/-- Claim C2 (amended): for every accepted bid, when the remaining time at
commit is strictly below `soft_close_trigger_sec` the effective end grows by
exactly `soft_close_extend_sec`, the extension count rises by exactly 1, and
an `active` auction moves to `extended`; when the remaining time is at least
the trigger (boundary included), none of `extended_until`, `extension_count`,
`status_code` change. -/
theorem soft_close_extension (now : Int) (s : EngineState) (u : Nat)
    (amount seq : Int) (mp : Option Int) (bid ev : Nat) (sc : Bool)
    (hext : 0 ≤ s.auction.softCloseExtendSec)
    (hacc : (placeBid now s u amount seq mp).1 = PlaceBidOutcome.accepted bid ev sc) :
    (s.auction.getEffectiveEndTime - now < s.auction.softCloseTriggerSec →
      (placeBid now s u amount seq mp).2.auction.getEffectiveEndTime =
        s.auction.getEffectiveEndTime + s.auction.softCloseExtendSec ∧
      (placeBid now s u amount seq mp).2.auction.extensionCount =
        s.auction.extensionCount + 1 ∧
      (s.auction.statusCode = AuctionStatus.active →
        (placeBid now s u amount seq mp).2.auction.statusCode =
          AuctionStatus.extended)) ∧
    (s.auction.softCloseTriggerSec ≤ s.auction.getEffectiveEndTime - now →
      (placeBid now s u amount seq mp).2.auction.extendedUntil =
        s.auction.extendedUntil ∧
      (placeBid now s u amount seq mp).2.auction.extensionCount =
        s.auction.extensionCount ∧
      (placeBid now s u amount seq mp).2.auction.statusCode =
        s.auction.statusCode) := by
  rcases placeBid_split now s u amount seq mp with ⟨_, hne⟩ | ⟨_, _, hact, _, _, _, heq⟩
  · exact absurd hacc (hne bid ev sc)
  rw [heq]
  dsimp only
  have hE : ∀ B : Auction,
      (if s.auction.isEnglishAuction = true then B.updateCurrentPrice amount u
        else B).getEffectiveEndTime = B.getEffectiveEndTime ∧
      (if s.auction.isEnglishAuction = true then B.updateCurrentPrice amount u
        else B).extensionCount = B.extensionCount ∧
      (if s.auction.isEnglishAuction = true then B.updateCurrentPrice amount u
        else B).statusCode = B.statusCode ∧
      (if s.auction.isEnglishAuction = true then B.updateCurrentPrice amount u
        else B).extendedUntil = B.extendedUntil := by
    intro B
    by_cases heng : s.auction.isEnglishAuction = true
    · rw [if_pos heng]
      rcases updateCurrentPrice_lifecycle_fields B amount u with ⟨h1, h2, h3, h4, _, _⟩
      exact ⟨h4, h3, h1, h2⟩
    · rw [if_neg heng]
      exact ⟨rfl, rfl, rfl, rfl⟩
  rcases hE (s.auction.extendAuction now) with ⟨hEnd, hCnt, hStat, hUntil⟩
  constructor
  · intro hwin
    have hcan := canExtend_of_window s.auction now hact hwin
    refine ⟨?_, ?_, ?_⟩
    · rw [hEnd]
      exact getEffectiveEndTime_after_extend s.auction now hcan hext
    · rw [hCnt, extendAuction_of_canExtend s.auction now hcan]
    · intro hst
      rw [hStat, extendAuction_of_canExtend s.auction now hcan]
      simp [hst]
  · intro hnwin
    have hcan := canExtend_of_no_window s.auction now hnwin
    rw [hUntil, hCnt, hStat, extendAuction_of_not_canExtend s.auction now hcan]
    exact ⟨rfl, rfl, rfl⟩

/-- Witness for C2: a bid at 821 (remaining 179 < trigger 180) pushes the
effective end from 1000 to 1060, bumps the count to 1, moves the status to
`extended`. -/
theorem soft_close_extension_witness :
    (placeBid 821 stateLiveEmpty 5 200 1 none).2.auction.getEffectiveEndTime =
      stateLiveEmpty.auction.getEffectiveEndTime +
        stateLiveEmpty.auction.softCloseExtendSec ∧
    (placeBid 821 stateLiveEmpty 5 200 1 none).2.auction.extensionCount =
      stateLiveEmpty.auction.extensionCount + 1 ∧
    (placeBid 821 stateLiveEmpty 5 200 1 none).2.auction.statusCode =
      AuctionStatus.extended := by
  have h := soft_close_extension 821 stateLiveEmpty 5 200 1 none 1 1 true
    (by decide) (by decide)
  rcases h.1 (by decide) with ⟨hend, hcount, hstat⟩
  exact ⟨hend, hcount, hstat (by decide)⟩

/-- Counterexample to C2 as stated: at remaining time exactly equal to the
trigger (bid at 820 against effective end 1000, trigger 180) the bid is
accepted but nothing is extended — the source window test is strict
(`time.Now().After(effectiveEnd - trigger)`). -/
theorem soft_close_boundary_not_extended :
    (placeBid 820 stateLiveEmpty 5 200 1 none).1 =
      PlaceBidOutcome.accepted 1 1 false ∧
    stateLiveEmpty.auction.getEffectiveEndTime - 820 ≤
      stateLiveEmpty.auction.softCloseTriggerSec ∧
    (placeBid 820 stateLiveEmpty 5 200 1 none).2.auction.extensionCount =
      stateLiveEmpty.auction.extensionCount ∧
    (placeBid 820 stateLiveEmpty 5 200 1 none).2.auction.extendedUntil =
      stateLiveEmpty.auction.extendedUntil ∧
    (placeBid 820 stateLiveEmpty 5 200 1 none).2.auction.statusCode =
      stateLiveEmpty.auction.statusCode := by
  decide

/-- Claim C5 (amended): after the blacklist check and the lock-and-reload,
`buy_it_now` verifies `BuyItNow` is set with status in {active, extended}
(english only), then sets `current_price = buy_it_now`,
`highest_bidder_id = buyer`, `reserve_met = true`, `status_code = ended`,
writes a winning visible bid row at the buy-it-now amount, and appends a
`closed` event. The pipeline performs no rate check and no idempotency
lookup (steps 1 and 4 of `submit_bid` are absent). -/
theorem buy_it_now_execution (now : Int) (s : EngineState) (buyer : Nat)
    (seq p : Int)
    (hbl : s.blacklist.contains buyer = false)
    (heng : s.auction.isEnglishAuction = true)
    (hbin : s.auction.buyItNow = some p)
    (hact : s.auction.isActive = true) :
    buyItNow now s buyer seq =
      (BuyItNowOutcome.success p s.nextEventID,
       { s with
         auction := { s.auction with
           currentPrice := some p
           highestBidderID := some buyer
           statusCode := AuctionStatus.ended
           reserveMet := true }
         bids := s.bids ++
           [{ bidID := s.nextBidID
              auctionID := s.auction.auctionID
              bidderID := buyer
              amount := p
              clientSeq := seq
              accepted := true
              rejectReason := ""
              finalRank := none
              maxProxyAmount := none
              isWinning := true
              isVisible := true
              createdAt := now
              deletedAt := none }]
         events := s.events ++
           [{ eventID := s.nextEventID
              auctionID := s.auction.auctionID
              eventType := EventType.closed
              actorUserID := some buyer }]
         history := s.history ++
           [{ auctionID := s.auction.auctionID
              fromStatus := AuctionStatus.active
              toStatus := AuctionStatus.ended
              reason := "Buy it now executed" }]
         nextBidID := s.nextBidID + 1
         nextEventID := s.nextEventID + 1 }) := by
  have hcan : s.auction.canBuyItNow = true := by
    unfold Auction.canBuyItNow
    rw [heng, hbin]
    simp [hact]
  have hex : s.auction.executeBuyItNow buyer =
      some { s.auction with
        currentPrice := some p
        highestBidderID := some buyer
        statusCode := AuctionStatus.ended
        reserveMet := true } := by
    unfold Auction.executeBuyItNow
    rw [if_neg (by simp [hcan])]
    simp [hbin]
  unfold buyItNow
  rw [if_neg (by simpa using hbl), if_neg (by simp [hcan]), hex]
  simp [hbin]

/-- Witness for C5: buyer 7 on the live english auction with buy-it-now 3000. -/
theorem buy_it_now_execution_witness :
    (buyItNow 100 stateBin 7 1).1 = BuyItNowOutcome.success 3000 1 := by
  rw [buy_it_now_execution 100 stateBin 7 1 3000 (by decide) (by decide)
    (by decide) (by decide)]
  rfl

/-- Counterexample to C5 as stated: bidder 5 already holds a bid with
client_seq 42 placed 3 seconds ago, yet `buy_it_now` at time 3 neither
replays (idempotency lookup of step 4) nor rejects as too frequent
(rate check of step 1); it succeeds and writes a second row. -/
theorem buy_it_now_skips_idempotency :
    (∃ b ∈ stateBin.bids, b.auctionID = stateBin.auction.auctionID ∧
       b.bidderID = 5 ∧ b.clientSeq = 42) ∧
    (stateBin.bids.any fun b => b.auctionID = stateBin.auction.auctionID &&
       b.bidderID = 5 && decide ((3 : Int) - 5 < b.createdAt)) = true ∧
    (buyItNow 3 stateBin 5 42).1 = BuyItNowOutcome.success 3000 1 ∧
    (buyItNow 3 stateBin 5 42).2.bids.length = stateBin.bids.length + 1 := by
  decide

/-- Claim C6 (amended): `submit_bid` preserves the range invariant — every
accepted stored bid lies in `[allowed_min_bid, allowed_max_bid]` — for sealed
and english auctions alike; the buy-it-now path, however, writes its accepted
row without a range check. -/
theorem place_bid_preserves_range_invariant (now : Int) (s : EngineState)
    (u : Nat) (amount seq : Int) (mp : Option Int)
    (hinv : rangeInv s) :
    rangeInv (placeBid now s u amount seq mp).2 := by
  rcases placeBid_split now s u amount seq mp with ⟨hstate, _⟩ | ⟨_, _, _, _, hchk, _, heq⟩
  · rw [hstate]; exact hinv
  · rw [heq]
    intro b hb hbacc
    have hmm : (if s.auction.isEnglishAuction = true then
          (s.auction.extendAuction now).updateCurrentPrice amount u
        else s.auction.extendAuction now).allowedMinBid = s.auction.allowedMinBid ∧
        (if s.auction.isEnglishAuction = true then
          (s.auction.extendAuction now).updateCurrentPrice amount u
        else s.auction.extendAuction now).allowedMaxBid = s.auction.allowedMaxBid := by
      by_cases heng : s.auction.isEnglishAuction = true
      · rw [if_pos heng]
        rcases updateCurrentPrice_lifecycle_fields (s.auction.extendAuction now)
          amount u with ⟨_, _, _, _, h5, h6⟩
        rcases extendAuction_money_fields now s.auction with ⟨e5, e6⟩
        exact ⟨h5.trans e5, h6.trans e6⟩
      · rw [if_neg heng]
        exact extendAuction_money_fields now s.auction
    dsimp only at hb ⊢
    rw [hmm.1, hmm.2]
    rcases List.mem_append.mp hb with hb1 | hb2
    · by_cases heng : s.auction.isEnglishAuction = true
      · rw [if_pos heng] at hb1
        rcases List.mem_map.mp hb1 with ⟨b0, hb0, hfb⟩
        by_cases haid : b0.auctionID = s.auction.auctionID
        · rw [if_pos haid] at hfb
          subst hfb
          exact hinv b0 hb0 hbacc
        · rw [if_neg haid] at hfb
          subst hfb
          exact hinv b0 hb0 hbacc
      · rw [if_neg heng] at hb1
        exact hinv b hb1 hbacc
    · simp only [List.mem_singleton] at hb2
      subst hb2
      exact amountCheck_none_range s.auction amount hchk

/-- Witness for C6: the accepted bid at 200 keeps the invariant on the live
auction with range [100, 500]. -/
theorem place_bid_preserves_range_invariant_witness :
    rangeInv (placeBid 821 stateLiveEmpty 5 200 1 none).2 :=
  place_bid_preserves_range_invariant 821 stateLiveEmpty 5 200 1 none (by decide)

/-- Counterexample to C6 as stated: the invariant holds before, but buy-it-now
at 3000 on the auction capped at 2000 stores an accepted bid above
`allowed_max_bid` — the buy-it-now write is not range-checked. -/
theorem buy_it_now_range_violation :
    rangeInv stateBin ∧
    ¬ rangeInv (buyItNow 100 stateBin 7 1).2 ∧
    (∃ b ∈ (buyItNow 100 stateBin 7 1).2.bids,
      b.accepted = true ∧
      (buyItNow 100 stateBin 7 1).2.auction.allowedMaxBid < b.amount) := by
  decide

theorem assignRanks_map_finalRank (l : List Bid) :
    ∀ n, (assignRanks n l).map (fun b => b.finalRank) =
      (List.range l.length).map (fun i => some (i + n)) := by
  induction l with
  | nil => intro n; rfl
  | cons b bs ih =>
    intro n
    simp only [assignRanks, List.map_cons, List.length_cons,
      List.range_succ_eq_map, List.map_map]
    rw [ih (n + 1)]
    congr 1
    · simp
    · apply List.map_congr_left
      intro i _
      simp only [Function.comp_apply, Nat.succ_eq_add_one, Option.some.injEq]
      omega

theorem bidLE_and_ne_imp_bidLT (x y : Bid)
    (hle : bidLE x y) (hne : ¬(x.amount = y.amount ∧ x.createdAt = y.createdAt)) :
    bidLT x y := by
  rcases hle with h | ⟨h1, h2⟩
  · exact Or.inl h
  · exact Or.inr ⟨h1, lt_of_le_of_ne h2 fun hc => hne ⟨h1, hc⟩⟩

theorem sortBids_eq_of_perm_of_nodup_keys (l₁ l₂ : List Bid)
    (hperm : l₁.Perm l₂)
    (hkeys : l₁.Pairwise fun a b => ¬(a.amount = b.amount ∧ a.createdAt = b.createdAt)) :
    sortBidsForFinalize l₁ = sortBidsForFinalize l₂ := by
  have hsym : ∀ {x y : Bid},
      (¬(x.amount = y.amount ∧ x.createdAt = y.createdAt)) →
      ¬(y.amount = x.amount ∧ y.createdAt = x.createdAt) :=
    fun h hc => h ⟨hc.1.symm, hc.2.symm⟩
  have hp1 : (sortBidsForFinalize l₁).Perm l₁ := List.perm_insertionSort bidLE l₁
  have hp2 : (sortBidsForFinalize l₂).Perm l₂ := List.perm_insertionSort bidLE l₂
  have hkeys₂ := (List.Perm.pairwise_iff hsym hperm).mp hkeys
  have hk1 := (List.Perm.pairwise_iff hsym hp1).mpr hkeys
  have hk2 := (List.Perm.pairwise_iff hsym hp2).mpr hkeys₂
  have hs1 : List.Sorted bidLT (sortBidsForFinalize l₁) :=
    ((List.sorted_insertionSort bidLE l₁).and hk1).imp
      fun h => bidLE_and_ne_imp_bidLT _ _ h.1 h.2
  have hs2 : List.Sorted bidLT (sortBidsForFinalize l₂) :=
    ((List.sorted_insertionSort bidLE l₂).and hk2).imp
      fun h => bidLE_and_ne_imp_bidLT _ _ h.1 h.2
  haveI : IsAntisymm Bid bidLT := by
    constructor
    intro a b h1 h2
    exfalso
    unfold bidLT at h1 h2
    rcases h1 with h1 | ⟨h1, h1'⟩ <;> rcases h2 with h2 | ⟨h2, h2'⟩ <;> omega
  exact List.eq_of_perm_of_sorted (hp1.trans (hperm.trans hp2.symm)) hs1 hs2

/-- Claim C3 (amended): `FinalizeAuction` sorts accepted bids by amount
descending with ties broken by created_at ascending — there is no bid_id
tiebreaker in the query — and assigns `final_rank = 1, 2, ...` in that order;
the assignment is unique for any fixed set of bids in which no two bids tie
on both amount and created_at. -/
theorem finalize_rank_assignment (l l₁ l₂ : List Bid)
    (hperm : l₁.Perm l₂)
    (hkeys : l₁.Pairwise fun a b => ¬(a.amount = b.amount ∧ a.createdAt = b.createdAt)) :
    List.Sorted bidLE (sortBidsForFinalize l) ∧
    (finalizeRanks l).map (fun b => b.finalRank) =
      (List.range l.length).map (fun i => some (i + 1)) ∧
    finalizeRanks l₁ = finalizeRanks l₂ := by
  refine ⟨List.sorted_insertionSort bidLE l, ?_, ?_⟩
  · rw [finalizeRanks, assignRanks_map_finalRank,
      show (sortBidsForFinalize l).length = l.length from
        (List.perm_insertionSort bidLE l).length_eq]
  · rw [finalizeRanks, finalizeRanks,
      sortBids_eq_of_perm_of_nodup_keys l₁ l₂ hperm hkeys]

/-- Witness for C3: three bids with distinct amounts are ranked 1, 2, 3, and
any presentation order of the same set yields the same assignment. -/
theorem finalize_rank_assignment_witness :
    List.Sorted bidLE (sortBidsForFinalize rankedBids) ∧
    (finalizeRanks rankedBids).map (fun b => b.finalRank) =
      (List.range rankedBids.length).map (fun i => some (i + 1)) ∧
    finalizeRanks rankedBids = finalizeRanks rankedBids.reverse :=
  finalize_rank_assignment rankedBids rankedBids rankedBids.reverse
    (rankedBids.reverse_perm).symm (by decide)

/-- Counterexample to C3 as stated: two bids fully tied on amount and
created_at but with distinct bid ids receive opposite ranks depending on the
unspecified row order of the fetch — the query has no bid_id tiebreaker, so
the assignment is not unique. -/
theorem finalize_rank_tie_order_dependent :
    [tieBidA, tieBidB].Perm [tieBidB, tieBidA] ∧
    tieBidA.bidID ≠ tieBidB.bidID ∧
    finalizeRanks [tieBidA, tieBidB] ≠ finalizeRanks [tieBidB, tieBidA] ∧
    (∃ b ∈ finalizeRanks [tieBidA, tieBidB], b.bidID = 1 ∧ b.finalRank = some 1) ∧
    (∃ b ∈ finalizeRanks [tieBidB, tieBidA], b.bidID = 2 ∧ b.finalRank = some 1) := by
  refine ⟨List.Perm.swap tieBidB tieBidA [], by decide, by decide, by decide, by decide⟩

/-- Claim C8: resume with `last_event_id = L` replays exactly the auction's
events with `event_id > L`, in strictly ascending `event_id` order, capped at
500 (the 500 smallest such ids), inside a single `resume_ok` reply. -/
theorem resume_replays_missed_events (s : StreamState) (a u lastID : Nat)
    (hnd : (s.events.map fun e => e.eventID).Nodup) :
    (handleResume s a u lastID).1.type = "resume_ok" ∧
    ((handleResume s a u lastID).1.missed.map fun e => e.eventID).Pairwise (· < ·) ∧
    (∀ e ∈ (handleResume s a u lastID).1.missed,
      e ∈ s.events ∧ e.auctionID = a ∧ lastID < e.eventID) ∧
    (handleResume s a u lastID).1.missed.length ≤ 500 ∧
    ((s.events.filter fun e =>
        e.auctionID = a && decide (lastID < e.eventID)).length ≤ 500 →
      ∀ e ∈ s.events, e.auctionID = a → lastID < e.eventID →
        e ∈ (handleResume s a u lastID).1.missed) := by
  have hperm : (List.insertionSort eventLE (s.events.filter fun e =>
      e.auctionID = a && decide (lastID < e.eventID))).Perm
      (s.events.filter fun e => e.auctionID = a && decide (lastID < e.eventID)) :=
    List.perm_insertionSort eventLE _
  have hfl_nd : ((s.events.filter fun e =>
      e.auctionID = a && decide (lastID < e.eventID)).map fun e => e.eventID).Nodup :=
    List.Nodup.sublist (List.Sublist.map _ (List.filter_sublist s.events)) hnd
  have hsl_nd := ((hperm.map fun e => e.eventID).nodup_iff).mpr hfl_nd
  have hslt : List.Sorted (fun e1 e2 : EventRec => e1.eventID < e2.eventID)
      (List.insertionSort eventLE (s.events.filter fun e =>
        e.auctionID = a && decide (lastID < e.eventID))) := by
    have hne := List.pairwise_map.mp hsl_nd
    exact ((List.sorted_insertionSort eventLE _).and hne).imp
      fun h => lt_of_le_of_ne h.1 h.2
  refine ⟨rfl, ?_, ?_, ?_, ?_⟩
  · exact List.pairwise_map.mpr
      (List.Pairwise.sublist (List.take_sublist 500 _) hslt)
  · intro e he
    have he2 := hperm.mem_iff.mp (List.mem_of_mem_take he)
    rcases List.mem_filter.mp he2 with ⟨hmem, hp⟩
    simp only [Bool.and_eq_true, decide_eq_true_eq] at hp
    exact ⟨hmem, hp.1, hp.2⟩
  · exact List.length_take_le 500 _
  · intro h500 e hmem ha hid
    have hlen : (List.insertionSort eventLE (s.events.filter fun e =>
        e.auctionID = a && decide (lastID < e.eventID))).length ≤ 500 := by
      rw [hperm.length_eq]
      exact h500
    show e ∈ (List.insertionSort eventLE _).take 500
    rw [List.take_of_length_le hlen]
    exact hperm.mem_iff.mpr (List.mem_filter.mpr ⟨hmem, by simp [ha, hid]⟩)

/-- Witness for C8: resuming auction 1 from event 1 replays events 2 and 4 in
ascending order inside a `resume_ok` reply. -/
theorem resume_replays_missed_events_witness :
    (handleResume streamFix 1 5 1).1.type = "resume_ok" ∧
    ((handleResume streamFix 1 5 1).1.missed.map fun e => e.eventID).Pairwise (· < ·) ∧
    (handleResume streamFix 1 5 1).1.missed.length ≤ 500 :=
  ⟨(resume_replays_missed_events streamFix 1 5 1 (by decide)).1,
   (resume_replays_missed_events streamFix 1 5 1 (by decide)).2.1,
   (resume_replays_missed_events streamFix 1 5 1 (by decide)).2.2.2.1⟩

theorem hasNotif_queue (a u : Nat) (k : NotificationKind) (logs : List NotifRow)
    (a' u' : Nat) (k' : NotificationKind) :
    hasNotif (queueNotification a u k logs) a' u' k' = true ↔
      hasNotif logs a' u' k' = true ∨ (a' = a ∧ u' = u ∧ k' = k) := by
  unfold queueNotification
  by_cases h : hasNotif logs a u k = true
  · rw [if_pos h]
    constructor
    · exact Or.inl
    · rintro (hl | ⟨rfl, rfl, rfl⟩)
      · exact hl
      · exact h
  · rw [if_neg h]
    unfold hasNotif
    simp only [List.any_append, Bool.or_eq_true, List.any_cons, List.any_nil,
      Bool.or_false, Bool.and_eq_true, decide_eq_true_eq]
    constructor
    · rintro (h1 | ⟨⟨h1, h2⟩, h3⟩)
      · exact Or.inl h1
      · exact Or.inr ⟨h1.symm, h2.symm, h3.symm⟩
    · rintro (h1 | ⟨rfl, rfl, rfl⟩)
      · exact Or.inl h1
      · exact Or.inr ⟨⟨rfl, rfl⟩, rfl⟩

theorem hasNotif_winner_stage (a : Nat) (rb : List Bid) (s : List NotifRow)
    (a' u' : Nat) (k' : NotificationKind) :
    hasNotif (winnerStage a rb s) a' u' k' = true ↔
      hasNotif s a' u' k' = true ∨
        (a' = a ∧ k' = NotificationKind.winner ∧
         ∃ w, rb.head? = some w ∧ w.bidderID = u') := by
  unfold winnerStage
  cases rb with
  | nil => simp
  | cons w tl =>
    rw [hasNotif_queue]
    constructor
    · rintro (h | ⟨rfl, rfl, rfl⟩)
      · exact Or.inl h
      · exact Or.inr ⟨rfl, rfl, w, rfl, rfl⟩
    · rintro (h | ⟨rfl, rfl, w', hw', rfl⟩)
      · exact Or.inl h
      · have hw2 : w = w' := by
          simpa [List.head?] using hw'
        subst hw2
        exact Or.inr ⟨rfl, rfl, rfl⟩

theorem hasNotif_foldl (a : Nat) (k : NotificationKind) (l : List Bid)
    (logs : List NotifRow) (a' u' : Nat) (k' : NotificationKind) :
    hasNotif (l.foldl (fun acc b => queueNotification a b.bidderID k acc) logs)
        a' u' k' = true ↔
      hasNotif logs a' u' k' = true ∨
        (a' = a ∧ k' = k ∧ ∃ b ∈ l, b.bidderID = u') := by
  induction l generalizing logs with
  | nil => simp
  | cons b bs ih =>
    simp only [List.foldl_cons]
    rw [ih, hasNotif_queue]
    constructor
    · rintro ((h | ⟨rfl, rfl, rfl⟩) | ⟨rfl, rfl, b', hb', rfl⟩)
      · exact Or.inl h
      · exact Or.inr ⟨rfl, rfl, b, List.mem_cons_self b bs, rfl⟩
      · exact Or.inr ⟨rfl, rfl, b', List.mem_cons_of_mem b hb', rfl⟩
    · rintro (h | ⟨rfl, rfl, b', hb', rfl⟩)
      · exact Or.inl (Or.inl h)
      · rcases List.mem_cons.mp hb' with rfl | hb2
        · exact Or.inl (Or.inr ⟨rfl, rfl, rfl⟩)
        · exact Or.inr ⟨rfl, rfl, b', hb2, rfl⟩

theorem queue_id_of_hasNotif (a u : Nat) (k : NotificationKind)
    (logs : List NotifRow) (h : hasNotif logs a u k = true) :
    queueNotification a u k logs = logs := by
  unfold queueNotification
  rw [if_pos h]

theorem winner_stage_id (a : Nat) (rb : List Bid) (s : List NotifRow)
    (h : ∀ w, rb.head? = some w →
      hasNotif s a w.bidderID NotificationKind.winner = true) :
    winnerStage a rb s = s := by
  unfold winnerStage
  cases rb with
  | nil => rfl
  | cons w tl => exact queue_id_of_hasNotif _ _ _ _ (h w rfl)

theorem foldl_queue_id (a : Nat) (k : NotificationKind) (l : List Bid)
    (logs : List NotifRow)
    (h : ∀ b ∈ l, hasNotif logs a b.bidderID k = true) :
    l.foldl (fun acc b => queueNotification a b.bidderID k acc) logs = logs := by
  induction l with
  | nil => rfl
  | cons b bs ih =>
    simp only [List.foldl_cons]
    rw [queue_id_of_hasNotif _ _ _ _ (h b (List.mem_cons_self b bs))]
    exact ih fun b' hb' => h b' (List.mem_cons_of_mem b hb')

theorem hasNotif_iff_key_mem (logs : List NotifRow) (a u : Nat)
    (k : NotificationKind) :
    hasNotif logs a u k = true ↔ (a, u, k) ∈ logs.map notifKey := by
  unfold hasNotif notifKey
  rw [List.any_eq_true]
  simp only [List.mem_map, Bool.and_eq_true, decide_eq_true_eq, Prod.mk.injEq]
  constructor
  · rintro ⟨r, hr, ⟨h1, h2⟩, h3⟩
    exact ⟨r, hr, h1, h2, h3⟩
  · rintro ⟨r, hr, h1, h2, h3⟩
    exact ⟨r, hr, ⟨h1, h2⟩, h3⟩

theorem notifKeysNodup_queue (a u : Nat) (k : NotificationKind)
    (logs : List NotifRow) (h : notifKeysNodup logs) :
    notifKeysNodup (queueNotification a u k logs) := by
  unfold queueNotification
  by_cases hh : hasNotif logs a u k = true
  · rw [if_pos hh]
    exact h
  · rw [if_neg hh]
    unfold notifKeysNodup at h ⊢
    rw [List.map_append, List.nodup_append]
    refine ⟨h, by simp, ?_⟩
    intro x hx hx2
    simp only [List.map_cons, List.map_nil, List.mem_singleton] at hx2
    subst hx2
    exact hh ((hasNotif_iff_key_mem logs a u k).mpr hx)

theorem notifKeysNodup_winner_stage (a : Nat) (rb : List Bid)
    (s : List NotifRow) (h : notifKeysNodup s) :
    notifKeysNodup (winnerStage a rb s) := by
  unfold winnerStage
  cases rb with
  | nil => exact h
  | cons w tl => exact notifKeysNodup_queue _ _ _ _ h

theorem notifKeysNodup_foldl (a : Nat) (k : NotificationKind) (l : List Bid)
    (logs : List NotifRow) (h : notifKeysNodup logs) :
    notifKeysNodup
      (l.foldl (fun acc b => queueNotification a b.bidderID k acc) logs) := by
  induction l generalizing logs with
  | nil => exact h
  | cons b bs ih =>
    simp only [List.foldl_cons]
    exact ih _ (notifKeysNodup_queue _ _ _ _ h)

theorem rank_one_iff_head (rb : List Bid)
    (hr : ∀ i (h : i < rb.length), (rb.get ⟨i, h⟩).finalRank = some (i + 1))
    (u : Nat) :
    (∃ w, rb.head? = some w ∧ w.bidderID = u) ↔
      ∃ b ∈ rb, b.finalRank = some 1 ∧ b.bidderID = u := by
  constructor
  · rintro ⟨w, hw, rfl⟩
    cases rb with
    | nil => simp at hw
    | cons w0 tl =>
      have hw0 : w0 = w := by simpa using hw
      subst hw0
      refine ⟨w0, List.mem_cons_self _ _, ?_, rfl⟩
      simpa using hr 0 (by simp)
  · rintro ⟨b, hb, hrank, rfl⟩
    rcases List.mem_iff_getElem.mp hb with ⟨i, hi, heq⟩
    have hri := hr i hi
    rw [List.get_eq_getElem, heq] at hri
    have h2 : (some (i + 1) : Option Nat) = some 1 := by rw [← hri, hrank]
    have hi0 : i = 0 := by
      simp only [Option.some.injEq] at h2
      omega
    subst hi0
    cases rb with
    | nil => exact absurd hi (by simp)
    | cons w0 tl =>
      have : w0 = b := by simpa using heq
      subst this
      exact ⟨w0, rfl, rfl⟩

theorem rank_top7_iff_positions (rb : List Bid)
    (hr : ∀ i (h : i < rb.length), (rb.get ⟨i, h⟩).finalRank = some (i + 1))
    (u : Nat) :
    (∃ b ∈ (rb.drop 1).take 6, b.bidderID = u) ↔
      ∃ b ∈ rb, ∃ r, b.finalRank = some r ∧ 2 ≤ r ∧ r ≤ 7 ∧ b.bidderID = u := by
  constructor
  · rintro ⟨b, hb, rfl⟩
    rcases List.mem_iff_getElem.mp hb with ⟨j, hj, heq⟩
    have hj2 : j < 6 ∧ 1 + j < rb.length := by
      simp only [List.length_take, List.length_drop] at hj
      omega
    rw [List.getElem_take, List.getElem_drop] at heq
    have hrj := hr (1 + j) hj2.2
    rw [List.get_eq_getElem, heq] at hrj
    refine ⟨b, List.mem_iff_getElem.mpr ⟨1 + j, hj2.2, heq⟩, j + 2, ?_, by omega,
      by omega, rfl⟩
    rw [hrj]
    congr 1
    omega
  · rintro ⟨b, hb, r, hrank, hr2, hr7, rfl⟩
    rcases List.mem_iff_getElem.mp hb with ⟨i, hi, heq⟩
    have hri := hr i hi
    rw [List.get_eq_getElem, heq] at hri
    have h2 : (some (i + 1) : Option Nat) = some r := by rw [← hri, hrank]
    simp only [Option.some.injEq] at h2
    have hib : 1 ≤ i ∧ i ≤ 6 := by omega
    have hlen : i - 1 < ((rb.drop 1).take 6).length := by
      simp only [List.length_take, List.length_drop]
      omega
    refine ⟨b, List.mem_iff_getElem.mpr ⟨i - 1, hlen, ?_⟩, rfl⟩
    rw [List.getElem_take, List.getElem_drop]
    rw [← heq]
    congr 1
    omega

theorem rank_ge8_iff_positions (rb : List Bid)
    (hr : ∀ i (h : i < rb.length), (rb.get ⟨i, h⟩).finalRank = some (i + 1))
    (u : Nat) :
    (∃ b ∈ rb.drop 7, b.bidderID = u) ↔
      ∃ b ∈ rb, ∃ r, b.finalRank = some r ∧ 8 ≤ r ∧ b.bidderID = u := by
  constructor
  · rintro ⟨b, hb, rfl⟩
    rcases List.mem_iff_getElem.mp hb with ⟨j, hj, heq⟩
    have hj2 : 7 + j < rb.length := by
      simp only [List.length_drop] at hj
      omega
    rw [List.getElem_drop] at heq
    have hrj := hr (7 + j) hj2
    rw [List.get_eq_getElem, heq] at hrj
    refine ⟨b, List.mem_iff_getElem.mpr ⟨7 + j, hj2, heq⟩, 7 + j + 1, hrj,
      by omega, rfl⟩
  · rintro ⟨b, hb, r, hrank, hr8, rfl⟩
    rcases List.mem_iff_getElem.mp hb with ⟨i, hi, heq⟩
    have hri := hr i hi
    rw [List.get_eq_getElem, heq] at hri
    have h2 : (some (i + 1) : Option Nat) = some r := by rw [← hri, hrank]
    simp only [Option.some.injEq] at h2
    have hlen : i - 7 < (rb.drop 7).length := by
      simp only [List.length_drop]
      omega
    refine ⟨b, List.mem_iff_getElem.mpr ⟨i - 7, hlen, ?_⟩, rfl⟩
    rw [List.getElem_drop, ← heq]
    congr 1
    omega

theorem hasNotif_send (a seller : Nat) (rb : List Bid) (logs : List NotifRow)
    (a' u' : Nat) (k' : NotificationKind) :
    hasNotif (sendAuctionEndNotifications a seller rb logs) a' u' k' = true ↔
      hasNotif logs a' u' k' = true ∨
      (a' = a ∧ u' = seller ∧ k' = NotificationKind.sellerResult) ∨
      (a' = a ∧ k' = NotificationKind.winner ∧
        ∃ w, rb.head? = some w ∧ w.bidderID = u') ∨
      (a' = a ∧ k' = NotificationKind.top7 ∧
        ∃ b ∈ (rb.drop 1).take 6, b.bidderID = u') ∨
      (a' = a ∧ k' = NotificationKind.participantEnd ∧
        ∃ b ∈ rb.drop 7, b.bidderID = u') := by
  simp only [sendAuctionEndNotifications]
  rw [hasNotif_foldl, hasNotif_foldl, hasNotif_winner_stage, hasNotif_queue]
  simp only [or_assoc]

/-- Claim C4: after finalization (ranked bids `rb` carry `final_rank = i + 1`
at position `i`), the notification log holds rows for exactly: the rank-1
bidder as winner, bidders ranked 2..7 as top7, bidders ranked 8 and beyond as
participant_end, and the seller as seller_result; the log never holds two
rows with the same `(auction_id, user_id, kind)`; and re-running the enqueue
step changes nothing. -/
theorem notification_coverage (a seller : Nat) (rb : List Bid)
    (hr : ∀ i (h : i < rb.length), (rb.get ⟨i, h⟩).finalRank = some (i + 1)) :
    (∀ u k, hasNotif (sendAuctionEndNotifications a seller rb []) a u k = true ↔
        ((k = NotificationKind.sellerResult ∧ u = seller) ∨
         (k = NotificationKind.winner ∧
           ∃ b ∈ rb, b.finalRank = some 1 ∧ b.bidderID = u) ∨
         (k = NotificationKind.top7 ∧
           ∃ b ∈ rb, ∃ r, b.finalRank = some r ∧ 2 ≤ r ∧ r ≤ 7 ∧ b.bidderID = u) ∨
         (k = NotificationKind.participantEnd ∧
           ∃ b ∈ rb, ∃ r, b.finalRank = some r ∧ 8 ≤ r ∧ b.bidderID = u))) ∧
    notifKeysNodup (sendAuctionEndNotifications a seller rb []) ∧
    sendAuctionEndNotifications a seller rb
        (sendAuctionEndNotifications a seller rb []) =
      sendAuctionEndNotifications a seller rb [] := by
  refine ⟨?_, ?_, ?_⟩
  · intro u k
    rw [hasNotif_send, ← rank_one_iff_head rb hr u, ← rank_top7_iff_positions rb hr u,
      ← rank_ge8_iff_positions rb hr u]
    simp only [hasNotif, List.any_nil, Bool.false_eq_true, false_or]
    constructor
    · rintro (⟨-, h1, h2⟩ | ⟨-, h1, h2⟩ | ⟨-, h1, h2⟩ | ⟨-, h1, h2⟩)
      · exact Or.inl ⟨h2, h1⟩
      · exact Or.inr (Or.inl ⟨h1, h2⟩)
      · exact Or.inr (Or.inr (Or.inl ⟨h1, h2⟩))
      · exact Or.inr (Or.inr (Or.inr ⟨h1, h2⟩))
    · rintro (⟨h1, h2⟩ | ⟨h1, h2⟩ | ⟨h1, h2⟩ | ⟨h1, h2⟩)
      · exact Or.inl ⟨trivial, h2, h1⟩
      · exact Or.inr (Or.inl ⟨trivial, h1, h2⟩)
      · exact Or.inr (Or.inr (Or.inl ⟨trivial, h1, h2⟩))
      · exact Or.inr (Or.inr (Or.inr ⟨trivial, h1, h2⟩))
  · simp only [sendAuctionEndNotifications]
    exact notifKeysNodup_foldl _ _ _ _
      (notifKeysNodup_foldl _ _ _ _
        (notifKeysNodup_winner_stage _ _ _
          (notifKeysNodup_queue _ _ _ _ (by simp [notifKeysNodup]))))
  · set S := sendAuctionEndNotifications a seller rb [] with hS
    have hmem : ∀ u' k', hasNotif S a u' k' = true ↔
        (hasNotif [] a u' k' = true ∨
         (a = a ∧ u' = seller ∧ k' = NotificationKind.sellerResult) ∨
         (a = a ∧ k' = NotificationKind.winner ∧
           ∃ w, rb.head? = some w ∧ w.bidderID = u') ∨
         (a = a ∧ k' = NotificationKind.top7 ∧
           ∃ b ∈ (rb.drop 1).take 6, b.bidderID = u') ∨
         (a = a ∧ k' = NotificationKind.participantEnd ∧
           ∃ b ∈ rb.drop 7, b.bidderID = u')) := by
      intro u' k'
      rw [hS]
      exact hasNotif_send a seller rb [] a u' k'
    have hexp : sendAuctionEndNotifications a seller rb S =
        (rb.drop 7).foldl
          (fun acc b => queueNotification a b.bidderID NotificationKind.participantEnd acc)
          (((rb.drop 1).take 6).foldl
            (fun acc b => queueNotification a b.bidderID NotificationKind.top7 acc)
            (winnerStage a rb
              (queueNotification a seller NotificationKind.sellerResult S))) := rfl
    rw [hexp]
    rw [queue_id_of_hasNotif a seller NotificationKind.sellerResult S
      ((hmem seller NotificationKind.sellerResult).mpr (Or.inr (Or.inl ⟨rfl, rfl, rfl⟩)))]
    rw [winner_stage_id a rb S (fun w hw =>
      (hmem w.bidderID NotificationKind.winner).mpr
        (Or.inr (Or.inr (Or.inl ⟨rfl, rfl, w, hw, rfl⟩))))]
    rw [foldl_queue_id a NotificationKind.top7 ((rb.drop 1).take 6) S (fun b hb =>
      (hmem b.bidderID NotificationKind.top7).mpr
        (Or.inr (Or.inr (Or.inr (Or.inl ⟨rfl, rfl, b, hb, rfl⟩)))))]
    exact foldl_queue_id a NotificationKind.participantEnd (rb.drop 7) S (fun b hb =>
      (hmem b.bidderID NotificationKind.participantEnd).mpr
        (Or.inr (Or.inr (Or.inr (Or.inr ⟨rfl, rfl, b, hb, rfl⟩)))))

/-- Witness for C4: the three ranked bids of `rankedBids` (seller 9) yield a
duplicate-free log and a fixed-point enqueue. -/
theorem notification_coverage_witness :
    notifKeysNodup (sendAuctionEndNotifications 1 9 rankedBids []) ∧
    sendAuctionEndNotifications 1 9 rankedBids
        (sendAuctionEndNotifications 1 9 rankedBids []) =
      sendAuctionEndNotifications 1 9 rankedBids [] :=
  ⟨(notification_coverage 1 9 rankedBids (by decide)).2.1,
   (notification_coverage 1 9 rankedBids (by decide)).2.2⟩

end AuctionModel
